import Mathlib

/-! Verification development for the `cln16sidh` package.

Shallow embedding of `field.go` (the extension field `F_{p^2}` on top of the
base-field kernels for `p = 2^372 * 3^239 - 1`) and of `isogeny.go` (the 3- and
4-isogeny constructors and evaluators on the Kummer line).

* A base-field element (`Fp751Element`, twelve 64-bit words) is the natural
  number its little-endian words spell; a double-width value (`Fp751X2`,
  twenty-four words) likewise.
* The base-field kernels are only declared in `field.go` (their bodies are
  assembly); they are modelled from the numeric contract of the specification.
* `isogeny.go` is written against the type `ExtensionFieldElement`, which is not
  part of the sources; the isogeny code is embedded over an arbitrary commutative
  ring `R` whose `*`, `+`, `-`, `1` stand for `Mul`, `Add`, `Sub`, `One`, and
  `Square x` is `x * x`.
-/

set_option exponentiation.threshold 4000

namespace Cln16sidh

/-! ## Base field: constants and kernels -/

/-- The number of 64-bit words of a base-field element (`Fp751NumWords`). -/
def Fp751NumWords : Nat := 12

/-- An element of the base field, in Montgomery form: the value of its
`Fp751NumWords` little-endian 64-bit words. -/
abbrev Fp751Element := Nat

/-- An intermediate product of two base-field elements: the value of its
`2 * Fp751NumWords` little-endian 64-bit words. -/
abbrev Fp751X2 := Nat

/-- Modelled from the spec: the modulus `p = 2^372 * 3^239 - 1`, which the sources
use but do not define. -/
def p751 : Nat := 2 ^ 372 * 3 ^ 239 - 1

/-- Modelled from the spec: the Montgomery radix, the power of two that fills the
768-bit container of a base-field element. -/
def montR : Nat := 2 ^ (64 * Fp751NumWords)

/-- Modelled from the spec: the inverse of the Montgomery radix modulo `p`.
Since `2^372 * 3^239 = p + 1`, the cube of that product is `1` modulo `p`, and
`2^1116 * 3^717 = 2^768 * (2^348 * 3^717)`. -/
def montRinv : Nat := (2 ^ 348 * 3 ^ 717) % p751

/-- Modelled from the spec: `Fp751AddReduced`, `z = (x + y) mod p`, canonical
result. -/
def Fp751AddReduced (x y : Fp751Element) : Fp751Element := (x + y) % p751

/-- Modelled from the spec: `Fp751SubReduced`, `z = (x - y) mod p`, canonical
result, wrapping around modulo `p` when `x < y`. -/
def Fp751SubReduced (x y : Fp751Element) : Fp751Element :=
  (((x : Int) - (y : Int)) % (p751 : Int)).toNat

/-- Modelled from the spec: `Fp751AddLazy`, `z = x + y` with no modular
reduction, in the twelve-word container. -/
def Fp751AddLazy (x y : Fp751Element) : Fp751Element :=
  (x + y) % 2 ^ (64 * Fp751NumWords)

/-- Modelled from the spec: `Fp751X2AddLazy`, `z = x + y` with no modular
reduction, in the twenty-four-word container. -/
def Fp751X2AddLazy (x y : Fp751X2) : Fp751X2 :=
  (x + y) % 2 ^ (64 * (2 * Fp751NumWords))

/-- Modelled from the spec: `Fp751Mul`, the full double-width product of the two
stored values. -/
def Fp751Mul (x y : Fp751Element) : Fp751X2 := x * y

/-- Modelled from the spec: `Fp751MontgomeryReduce`, `z = x * R^{-1} (mod p)`. -/
def Fp751MontgomeryReduce (x : Fp751X2) : Fp751Element := (x * montRinv) % p751

/-- Modelled from the spec: `Fp751StrongReduce`, which brings a value of
`[0, 2p)` into `[0, p)` (one conditional subtraction of `p`). -/
def Fp751StrongReduce (x : Fp751Element) : Fp751Element :=
  if p751 ≤ x then x - p751 else x

/-- The `i`-th 64-bit word of a stored value (`x[i]` in the sources). -/
def word (x : Nat) (i : Nat) : Nat := x / 2 ^ (64 * i) % 2 ^ 64

/-- The function `Fp751Element.VartimeEq`: strong-reduce both operands, then
compare all `Fp751NumWords` words, accumulating `eq = (x[i] == y[i]) && eq`. -/
def Fp751Element.VartimeEq (x y : Fp751Element) : Bool :=
  let x := Fp751StrongReduce x
  let y := Fp751StrongReduce y
  (List.range Fp751NumWords).foldl (fun eq i => (word x i == word y i) && eq) true

/-! ## Extension field `F_{p^2}` of `field.go` -/

/-- An element `A + B*i` of the extension field (`FieldElement`). -/
structure FieldElement where
  A : Fp751Element
  B : Fp751Element
deriving DecidableEq

/-- The method `FieldElement.Mul`, statement by statement; the result is the
value left in `dest`. -/
def FieldElement.Mul (lhs rhs : FieldElement) : FieldElement :=
  let a := lhs.A
  let b := lhs.B
  let c := rhs.A
  let d := rhs.B
  let ac := Fp751Mul a c
  let bd := Fp751Mul b d
  let b_minus_a := Fp751SubReduced b a
  let c_minus_d := Fp751SubReduced c d
  let ad_plus_bc := Fp751Mul b_minus_a c_minus_d
  let ad_plus_bc := Fp751X2AddLazy ad_plus_bc ac
  let ad_plus_bc := Fp751X2AddLazy ad_plus_bc bd
  let destB := Fp751MontgomeryReduce ad_plus_bc
  let ac := Fp751X2AddLazy ac bd
  let destA := Fp751MontgomeryReduce ac
  { A := destA, B := destB }

/-- The method `FieldElement.Add`. -/
def FieldElement.Add (lhs rhs : FieldElement) : FieldElement :=
  { A := Fp751AddReduced lhs.A rhs.A, B := Fp751AddReduced lhs.B rhs.B }

/-- The method `FieldElement.Sub`. -/
def FieldElement.Sub (lhs rhs : FieldElement) : FieldElement :=
  { A := Fp751SubReduced lhs.A rhs.A, B := Fp751SubReduced lhs.B rhs.B }

/-- The method `FieldElement.VartimeEq`. -/
def FieldElement.VartimeEq (lhs rhs : FieldElement) : Bool :=
  Fp751Element.VartimeEq lhs.A rhs.A && Fp751Element.VartimeEq lhs.B rhs.B

/-- The base-field value a stored word string stands for: a stored `w` is the
Montgomery form `v * R mod p` of `v = w * R^{-1} mod p`. -/
def fromMontgomery (w : Fp751Element) : Nat := (w * montRinv) % p751

/-- The Montgomery form `v * R mod p` of a base-field value `v`. -/
def toMontgomery (v : Nat) : Fp751Element := (v * montR) % p751

/-- The element `i = 0 + 1*i` of the extension field, in Montgomery form. -/
def FieldElement.imaginaryUnit : FieldElement := { A := 0, B := toMontgomery 1 }

/-- Modelled from the spec: the additive identity `Zero`, both halves zero. -/
def FieldElement.zero : FieldElement := { A := 0, B := 0 }

/-- Modelled from the spec: the multiplicative identity `One`, whose real part is
the Montgomery form `R mod p` of `1` and whose imaginary part is `0`. -/
def FieldElement.one : FieldElement := { A := toMontgomery 1, B := 0 }

/-! ### `FieldElement.Mul` with a destructive Montgomery reduction -/

/-- The double-width local variables `ac`, `bd`, `ad_plus_bc` of
`FieldElement.Mul`. -/
structure MulLocals where
  ac : Fp751X2
  bd : Fp751X2
  ad_plus_bc : Fp751X2
deriving DecidableEq

/-- The kernel `Fp751MontgomeryReduce` as a call that destroys its input: it
returns the reduced value and the content it leaves in `x`, which is `leftover`,
a value about which nothing is known. -/
def Fp751MontgomeryReduceDestroying (leftover : Fp751X2) (x : Fp751X2) :
    Fp751Element × Fp751X2 :=
  (Fp751MontgomeryReduce x, leftover)

/-- The method `FieldElement.Mul` with its double-width locals kept in a record
that every statement reads and updates; the two calls of
`Fp751MontgomeryReduce` overwrite their inputs with `leftover1` and `leftover2`.
Returns `dest` and the final locals. -/
def FieldElement.MulDestroying (leftover1 leftover2 : Fp751X2) (lhs rhs : FieldElement) :
    FieldElement × MulLocals :=
  let a := lhs.A
  let b := lhs.B
  let c := rhs.A
  let d := rhs.B
  let s : MulLocals := { ac := 0, bd := 0, ad_plus_bc := 0 }
  let s := { s with ac := Fp751Mul a c }
  let s := { s with bd := Fp751Mul b d }
  let b_minus_a := Fp751SubReduced b a
  let c_minus_d := Fp751SubReduced c d
  let s := { s with ad_plus_bc := Fp751Mul b_minus_a c_minus_d }
  let s := { s with ad_plus_bc := Fp751X2AddLazy s.ad_plus_bc s.ac }
  let s := { s with ad_plus_bc := Fp751X2AddLazy s.ad_plus_bc s.bd }
  let r := Fp751MontgomeryReduceDestroying leftover1 s.ad_plus_bc
  let destB := r.1
  let s := { s with ad_plus_bc := r.2 }
  let s := { s with ac := Fp751X2AddLazy s.ac s.bd }
  let r := Fp751MontgomeryReduceDestroying leftover2 s.ac
  let destA := r.1
  let s := { s with ac := r.2 }
  ({ A := destA, B := destB }, s)

/-! ## Curve and point model of `isogeny.go`

The types `ExtensionFieldElement`, `ProjectivePoint` and
`ProjectiveCurveParameters` are used by `isogeny.go` but declared elsewhere. The
coefficient type is a parameter `R`; a method call `dest.Op(&l, &r)` is the
ring operation on `l` and `r`, and a chained call `t.Op1(..).Op2(..)` is two
successive assignments to `t`. -/

/-- Modelled from the spec: `Square`, the product of an extension-field element
with itself. -/
def Square {R : Type} [Mul R] (x : R) : R := x * x

/-- Modelled from the spec: a projective point `(X : Z)` on the Kummer line. -/
structure ProjectivePoint (R : Type) where
  x : R
  z : R
deriving DecidableEq

/-- Modelled from the spec: projective curve parameters `(A : C)`. -/
structure ProjectiveCurveParameters (R : Type) where
  A : R
  C : R
deriving DecidableEq

/-- Modelled from the spec: `fromAffine`, an affine coordinate `x` becomes the
projective point `(x : 1)`. -/
def ProjectivePoint.fromAffine {R : Type} [One R] (x : R) : ProjectivePoint R :=
  { x := x, z := 1 }

/-- Modelled from the spec: `toAffine`, the affine coordinate `X / Z` of a
projective point, which needs an inversion and so a field. -/
def ProjectivePoint.toAffine {K : Type} [Field K] (P : ProjectivePoint K) : K :=
  P.x / P.z

/-- A 3-isogeny descriptor (`ThreeIsogeny`). -/
structure ThreeIsogeny (R : Type) where
  x : R
  z : R
deriving DecidableEq

/-- The function `ComputeThreeIsogeny`, statement by statement. -/
def ComputeThreeIsogeny {R : Type} [CommRing R] (x3 : ProjectivePoint R) :
    ProjectiveCurveParameters R × ThreeIsogeny R :=
  let isogeny : ThreeIsogeny R := { x := x3.x, z := x3.z }
  let v1 := Square x3.x
  let v0 := v1 + v1
  let v0 := v1 + v0
  let v1 := v0 + v0
  let v1 := v1 + v0
  let v2 := Square x3.z
  let v3 := Square v2
  let v2 := v2 + v2
  let v0 := v2 - v0
  let v1 := v1 * v0
  let v0 := x3.x * x3.z
  let v0 := v0 + v0
  let codomainA := v3 + v1
  let codomainC := v0 * v2
  ({ A := codomainA, C := codomainC }, isogeny)

/-- The method `ThreeIsogeny.Eval`, statement by statement. -/
def ThreeIsogeny.Eval {R : Type} [CommRing R] (phi : ThreeIsogeny R)
    (xP : ProjectivePoint R) : ProjectivePoint R :=
  let t0 := phi.x * xP.x
  let t1 := phi.z * xP.z
  let t2 := t0 - t1
  let t0 := phi.z * xP.x
  let t1 := phi.x * xP.z
  let t0 := t0 - t1
  let t2 := Square t2
  let t0 := Square t0
  let xQx := t2 * xP.x
  let xQz := t0 * xP.z
  { x := xQx, z := xQz }

/-- A 4-isogeny descriptor (`FourIsogeny`). -/
structure FourIsogeny (R : Type) where
  Xsq_plus_Zsq : R
  Xsq_minus_Zsq : R
  XZ2 : R
  Xpow4 : R
  Zpow4 : R
deriving DecidableEq

/-- The function `ComputeFourIsogeny`, statement by statement. -/
def ComputeFourIsogeny {R : Type} [CommRing R] (x4 : ProjectivePoint R) :
    ProjectiveCurveParameters R × FourIsogeny R :=
  let v0 := Square x4.x
  let v1 := Square x4.z
  let iso_Xsq_plus_Zsq := v0 + v1
  let iso_Xsq_minus_Zsq := v0 - v1
  let iso_XZ2 := x4.x + x4.z
  let iso_XZ2 := Square iso_XZ2
  let iso_XZ2 := iso_XZ2 - iso_Xsq_plus_Zsq
  let iso_Xpow4 := Square v0
  let iso_Zpow4 := Square v1
  let v0 := iso_Xpow4 + iso_Xpow4
  let v0 := v0 - iso_Zpow4
  let codomainA := v0 + v0
  let codomainC := iso_Zpow4
  ({ A := codomainA, C := codomainC },
   { Xsq_plus_Zsq := iso_Xsq_plus_Zsq, Xsq_minus_Zsq := iso_Xsq_minus_Zsq,
     XZ2 := iso_XZ2, Xpow4 := iso_Xpow4, Zpow4 := iso_Zpow4 })

/-- The method `FourIsogeny.Eval`, statement by statement. -/
def FourIsogeny.Eval {R : Type} [CommRing R] (phi : FourIsogeny R)
    (xP : ProjectivePoint R) : ProjectivePoint R :=
  let t0 := xP.x * phi.XZ2
  let t1 := xP.z * phi.Xsq_plus_Zsq
  let t0 := t0 - t1
  let t1 := xP.z * phi.Xsq_minus_Zsq
  let t2 := t0 - t1
  let t2 := Square t2
  let t0 := t0 * t1
  let t0 := t0 + t0
  let t0 := t0 + t0
  let t1 := t0 + t2
  let t0 := t0 * t2
  let xQz := t0 * phi.Zpow4
  let t2 := t2 * phi.Zpow4
  let t0 := t1 * phi.Xpow4
  let t0 := t2 - t0
  let xQx := t1 * t0
  { x := xQx, z := xQz }

/-- The descriptor of the first 4-isogeny (`FirstFourIsogeny`). -/
structure FirstFourIsogeny (R : Type) where
  a : R
deriving DecidableEq

/-- The function `ComputeFirstFourIsogeny`, statement by statement. -/
def ComputeFirstFourIsogeny {R : Type} [CommRing R] (a : R) :
    ProjectiveCurveParameters R × FirstFourIsogeny R :=
  let t0 : R := 1
  let t0 := t0 + t0
  let codomainC := a - t0
  let t1 := t0 + t0
  let t1 := t0 + t1
  let t0 := t1 + a
  let codomainA := t0 + t0
  ({ A := codomainA, C := codomainC }, { a := a })

/-- The method `FirstFourIsogeny.Eval`, statement by statement. -/
def FirstFourIsogeny.Eval {R : Type} [CommRing R] (phi : FirstFourIsogeny R)
    (xP : ProjectivePoint R) : ProjectivePoint R :=
  let t0 := xP.x + xP.z
  let t0 := Square t0
  let t1 : R := 1
  let t1 := t1 + t1
  let t1 := t1 - phi.a
  let t2 := xP.x * xP.z
  let t2 := t2 * t1
  let t1 := t0 - t2
  let xQx := t0 * t1
  let t0 := xP.x - xP.z
  let t0 := Square t0
  let xQz := t0 * t2
  { x := xQx, z := xQz }

/-! ## The extension field of `isogeny.go` and the test vectors -/

/-- Modelled from the spec: the type `ExtensionFieldElement` of `isogeny.go`, an
element `a + b*i` with `i^2 = -1` over a base ring `K`; the tests take
`K = ZMod p751`, which gives `F_{p^2} = F_p[i]/(i^2+1)`. Each half is kept as the
base-field value it stands for, not as its Montgomery word string. -/
structure ExtensionFieldElement (K : Type) where
  a : K
  b : K
deriving DecidableEq

namespace ExtensionFieldElement

variable {K : Type} [CommRing K]

instance : Zero (ExtensionFieldElement K) := ⟨⟨0, 0⟩⟩
instance : One (ExtensionFieldElement K) := ⟨⟨1, 0⟩⟩
instance : Add (ExtensionFieldElement K) := ⟨fun x y => ⟨x.a + y.a, x.b + y.b⟩⟩
instance : Neg (ExtensionFieldElement K) := ⟨fun x => ⟨-x.a, -x.b⟩⟩
instance : Sub (ExtensionFieldElement K) := ⟨fun x y => ⟨x.a - y.a, x.b - y.b⟩⟩
instance : Mul (ExtensionFieldElement K) :=
  ⟨fun x y => ⟨x.a * y.a - x.b * y.b, x.a * y.b + x.b * y.a⟩⟩

instance : AddCommGroup (ExtensionFieldElement K) where
  add_assoc x y z := by
    rcases x with ⟨xa, xb⟩; rcases y with ⟨ya, yb⟩; rcases z with ⟨za, zb⟩
    show mk ((xa + ya) + za) ((xb + yb) + zb)
      = mk (xa + (ya + za)) (xb + (yb + zb))
    congr 1 <;> ring
  zero_add x := by
    rcases x with ⟨xa, xb⟩
    show mk (0 + xa) (0 + xb)
      = mk xa xb
    congr 1 <;> ring
  add_zero x := by
    rcases x with ⟨xa, xb⟩
    show mk (xa + 0) (xb + 0)
      = mk xa xb
    congr 1 <;> ring
  add_comm x y := by
    rcases x with ⟨xa, xb⟩; rcases y with ⟨ya, yb⟩
    show mk (xa + ya) (xb + yb)
      = mk (ya + xa) (yb + xb)
    congr 1 <;> ring
  sub_eq_add_neg x y := by
    rcases x with ⟨xa, xb⟩; rcases y with ⟨ya, yb⟩
    show mk (xa - ya) (xb - yb)
      = mk (xa + (-ya)) (xb + (-yb))
    congr 1 <;> ring
  neg_add_cancel x := by
    rcases x with ⟨xa, xb⟩
    show mk ((-xa) + xa) ((-xb) + xb)
      = mk 0 0
    congr 1 <;> ring
  nsmul := nsmulRec
  zsmul := zsmulRec

instance : CommMonoid (ExtensionFieldElement K) where
  mul_assoc x y z := by
    rcases x with ⟨xa, xb⟩; rcases y with ⟨ya, yb⟩; rcases z with ⟨za, zb⟩
    show mk ((xa * ya - xb * yb) * za - (xa * yb + xb * ya) * zb) ((xa * ya - xb * yb) * zb + (xa * yb + xb * ya) * za)
      = mk (xa * (ya * za - yb * zb) - xb * (ya * zb + yb * za)) (xa * (ya * zb + yb * za) + xb * (ya * za - yb * zb))
    congr 1 <;> ring
  one_mul x := by
    rcases x with ⟨xa, xb⟩
    show mk (1 * xa - 0 * xb) (1 * xb + 0 * xa)
      = mk xa xb
    congr 1 <;> ring
  mul_one x := by
    rcases x with ⟨xa, xb⟩
    show mk (xa * 1 - xb * 0) (xa * 0 + xb * 1)
      = mk xa xb
    congr 1 <;> ring
  mul_comm x y := by
    rcases x with ⟨xa, xb⟩; rcases y with ⟨ya, yb⟩
    show mk (xa * ya - xb * yb) (xa * yb + xb * ya)
      = mk (ya * xa - yb * xb) (ya * xb + yb * xa)
    congr 1 <;> ring

instance : CommRing (ExtensionFieldElement K) where
  left_distrib x y z := by
    rcases x with ⟨xa, xb⟩; rcases y with ⟨ya, yb⟩; rcases z with ⟨za, zb⟩
    show mk (xa * (ya + za) - xb * (yb + zb)) (xa * (yb + zb) + xb * (ya + za))
      = mk ((xa * ya - xb * yb) + (xa * za - xb * zb)) ((xa * yb + xb * ya) + (xa * zb + xb * za))
    congr 1 <;> ring
  right_distrib x y z := by
    rcases x with ⟨xa, xb⟩; rcases y with ⟨ya, yb⟩; rcases z with ⟨za, zb⟩
    show mk ((xa + ya) * za - (xb + yb) * zb) ((xa + ya) * zb + (xb + yb) * za)
      = mk ((xa * za - xb * zb) + (ya * za - yb * zb)) ((xa * zb + xb * za) + (ya * zb + yb * za))
    congr 1 <;> ring
  zero_mul x := by
    rcases x with ⟨xa, xb⟩
    show mk (0 * xa - 0 * xb) (0 * xb + 0 * xa)
      = mk 0 0
    congr 1 <;> ring
  mul_zero x := by
    rcases x with ⟨xa, xb⟩
    show mk (xa * 0 - xb * 0) (xa * 0 + xb * 0)
      = mk 0 0
    congr 1 <;> ring
  mul_assoc := mul_assoc
  one_mul := one_mul
  mul_one := mul_one
  mul_comm := mul_comm
  neg_add_cancel := neg_add_cancel
  sub_eq_add_neg := sub_eq_add_neg
  zsmul := zsmulRec

end ExtensionFieldElement

/-- The value of an `fp751Element` literal: its 64-bit words, least significant
first. -/
def fp751Element (ws : List Nat) : Fp751Element :=
  ws.foldr (fun w acc => w + 2 ^ 64 * acc) 0

/-- The extension-field element written `ExtensionFieldElement{a: .., b: ..}` in
the tests: both halves are Montgomery-form word strings, read through
`fromMontgomery`. -/
def ExtensionFieldElement.ofWords (a b : List Nat) : ExtensionFieldElement (ZMod p751) :=
  { a := ((fromMontgomery (fp751Element a) : Nat) : ZMod p751),
    b := ((fromMontgomery (fp751Element b) : Nat) : ZMod p751) }

namespace TestFirstFourIsogenyVersusSage

/-- The affine point `xR` of `TestFirstFourIsogenyVersusSage`, component `a`: the words of the `fp751Element` literal. -/
def xR_a : List Nat :=
  [0xa179cb7e2a95fce9, 0xbfd6a0f3a0a892c0, 0x8b2f0aa4250ab3f3, 
   0x2e7aa4dd4118732d, 0x627969e493acbc2a, 0x21a5b852c7b8cc83, 
   0x26084278586324f2, 0x383be1aa5aa947c0, 0xc6558ecbb5c0183e, 
   0xf1f192086a52b035, 0x4c58b755b865c1b, 0x67b4ceea2d2c]

/-- The affine point `xR` of `TestFirstFourIsogenyVersusSage`, component `b`: the words of the `fp751Element` literal. -/
def xR_b : List Nat :=
  [0xfceb02a2797fecbf, 0x3fee9e1d21f95e99, 0xa1c4ce896024e166, 
   0xc09c024254517358, 0xf0255994b17b94e7, 0xa4834359b41ee894, 
   0x9487f7db7ebefbe, 0x3bbeeb34a0bf1f24, 0xfa7e5533514c6a05, 
   0x92b0328146450a9a, 0xfde71ca3fada4c06, 0x3610f995c2bd]

/-- The Sage-computed image `sageIsogenized_xR` of `TestFirstFourIsogenyVersusSage`, component `a`: the words of the `fp751Element` literal. -/
def sageIsogenized_xR_a : List Nat :=
  [0xff99e76f78da1e05, 0xdaa36bd2bb8d97c4, 0xb4328cee0a409daf, 
   0xc28b099980c5da3f, 0xf2d7cd15cfebb852, 0x1935103dded6cdef, 
   0xade81528de1429c3, 0x6775b0fa90a64319, 0x25f89817ee52485d, 
   0x706e2d00848e697, 0xc4958ec4216d65c0, 0xc519681417f]

/-- The Sage-computed image `sageIsogenized_xR` of `TestFirstFourIsogenyVersusSage`, component `b`: the words of the `fp751Element` literal. -/
def sageIsogenized_xR_b : List Nat :=
  [0x742fe7dde60e1fb9, 0x801a3c78466a456b, 0xa9f945b786f48c35, 
   0x20ce89e1b144348f, 0xf633970b7776217e, 0x4c6077a9b38976e5, 
   0x34a513fc766c7825, 0xacccba359b9cd65, 0xd0ca8383f0fd0125, 
   0x77350437196287a, 0x9fe1ad7706d4ea21, 0x4d26129ee42d]

/-- The projective point `xR` of the test. -/
def xR : ProjectivePoint (ExtensionFieldElement (ZMod p751)) :=
  ProjectivePoint.fromAffine (ExtensionFieldElement.ofWords xR_a xR_b)

/-- The projective point `sageIsogenized_xR` of the test. -/
def sageIsogenized_xR : ProjectivePoint (ExtensionFieldElement (ZMod p751)) :=
  ProjectivePoint.fromAffine
    (ExtensionFieldElement.ofWords sageIsogenized_xR_a sageIsogenized_xR_b)

/-- The point `isogenized_xR` the test computes: `a` is zero, `phi` comes from
`ComputeFirstFourIsogeny`, and `phi` is evaluated at `xR`. -/
def isogenized_xR : ProjectivePoint (ExtensionFieldElement (ZMod p751)) :=
  (ComputeFirstFourIsogeny (0 : ExtensionFieldElement (ZMod p751))).2.Eval xR

/-- The inverse of the `z` coordinate of `isogenized_xR` in `TestFirstFourIsogenyVersusSage`, component `a`, as
little-endian 64-bit words of the residue itself. -/
def isogenized_xR_zInv_a : List Nat :=
  [0x4315cf9eabb14c30, 0xa8ac52310cfb4c18, 0x914e68bae61f8690, 
   0xc3291e1f6535e4d4, 0xf3e9cb7d495574a, 0x221989bb35b16e37, 
   0x77a31b51ce147116, 0x194beb69828e4d72, 0x6d02e30fd2173e7, 
   0x360d1b8ff03406c1, 0x997bcf1c262c7d53, 0x3d09010625d7]

/-- The inverse of the `z` coordinate of `isogenized_xR` in `TestFirstFourIsogenyVersusSage`, component `b`, as
little-endian 64-bit words of the residue itself. -/
def isogenized_xR_zInv_b : List Nat :=
  [0xbdf8ba3e03801cda, 0x3847e98e85b97de4, 0xcbac97d1a23e7c2, 
   0xc15c27d8c4dea82, 0xb142568de77c0e85, 0xd3b2f9abe3936fac, 
   0x157a5427c5e5ba27, 0x44808418468a01a3, 0xfcfd89711d544aac, 
   0xa17a6ca8cedbadd4, 0xb8555cb75fa730c6, 0x4475364780ca]

/-- The inverse of the `z` coordinate of `isogenized_xR`. -/
def isogenized_xR_zInv : ExtensionFieldElement (ZMod p751) :=
  { a := ((fp751Element isogenized_xR_zInv_a : Nat) : ZMod p751),
    b := ((fp751Element isogenized_xR_zInv_b : Nat) : ZMod p751) }

end TestFirstFourIsogenyVersusSage

namespace TestThreeIsogenyVersusSage

/-- The affine point `xR` of `TestThreeIsogenyVersusSage`, component `a`: the words of the `fp751Element` literal. -/
def xR_a : List Nat :=
  [0xbd0737ed5cc9a3d7, 0x45ae6d476517c101, 0x6f228e9e7364fdb2, 
   0xbba4871225b3dbd, 0x6299ccd2e5da1a07, 0x38488fe4af5f2d0e, 
   0xec23cae5a86e980c, 0x26c804ba3f1edffa, 0xfbbed81932df60e5, 
   0x7e00e9d182ae9187, 0xc7654abb66d05f4b, 0x262d0567237b]

/-- The affine point `xR` of `TestThreeIsogenyVersusSage`, component `b`: the words of the `fp751Element` literal. -/
def xR_b : List Nat :=
  [0x3a3b5b6ad0b2ac33, 0x246602b5179127d3, 0x502ae0e9ad65077d, 
   0x10a3a37237e1bf70, 0x4a1ab9294dd05610, 0xb0f3adac30fe1fa6, 
   0x341995267faf70cb, 0xa14dd94d39cf4ec1, 0xce4b7527d1bf5568, 
   0xe0410423ed45c7e4, 0x38011809b6425686, 0x28f52472ebed]

/-- The affine kernel point `xP3` of `TestThreeIsogenyVersusSage`, component `a`: the words of the `fp751Element` literal. -/
def xP3_a : List Nat :=
  [0x7bb7a4a07b0788dc, 0xdc36a3f6607b21b0, 0x4750e18ee74cf2f0, 
   0x464e319d0b7ab806, 0xc25aa44c04f758ff, 0x392e8521a46e0a68, 
   0xfc4e76b63eff37df, 0x1f3566d892e67dd8, 0xf8d2eb0f73295e65, 
   0x457b13ebc470bccb, 0xfda1cc9efef5be33, 0x5dbf3d92cc02]

/-- The affine kernel point `xP3` of `TestThreeIsogenyVersusSage`, component `b`: the words of the `fp751Element` literal. -/
def xP3_b : List Nat :=
  [0x0, 0x0, 0x0, 
   0x0, 0x0, 0x0, 
   0x0, 0x0, 0x0, 
   0x0, 0x0, 0x0]

/-- The Sage-computed image `sageIsogenized_xR` of `TestThreeIsogenyVersusSage`, component `a`: the words of the `fp751Element` literal. -/
def sageIsogenized_xR_a : List Nat :=
  [0x286db7d75913c5b1, 0xcb2049ad50189220, 0xccee90ef765fa9f4, 
   0x65e52ce2730e7d88, 0xa6b6b553bd0d06e7, 0xb561ecec14591590, 
   0x17b7a66d8c64d959, 0x77778cecbe1461e, 0x9405c9c0c41a57ce, 
   0x8f6b4847e8ca7d3d, 0xf625eb987b366937, 0x421b3590e345]

/-- The Sage-computed image `sageIsogenized_xR` of `TestThreeIsogenyVersusSage`, component `b`: the words of the `fp751Element` literal. -/
def sageIsogenized_xR_b : List Nat :=
  [0x566b893803e7d8d6, 0xe8c71a04d527e696, 0x5a1d8f87bf5eb51, 
   0x42ae08ae098724f, 0x4ee3d7c7af40ca2e, 0xd9f9ab9067bb10a7, 
   0xecd53d69edd6328c, 0xa581e9202dea107d, 0x8bcdfb6c8ecf9257, 
   0xe7cbbc2e5cbcf2af, 0x5f031a8701f0e53e, 0x18312d93e3cb]

/-- The projective point `xR` of the test. -/
def xR : ProjectivePoint (ExtensionFieldElement (ZMod p751)) :=
  ProjectivePoint.fromAffine (ExtensionFieldElement.ofWords xR_a xR_b)

/-- The projective kernel point `xP3` of the test. -/
def xP3 : ProjectivePoint (ExtensionFieldElement (ZMod p751)) :=
  ProjectivePoint.fromAffine (ExtensionFieldElement.ofWords xP3_a xP3_b)

/-- The projective point `sageIsogenized_xR` of the test. -/
def sageIsogenized_xR : ProjectivePoint (ExtensionFieldElement (ZMod p751)) :=
  ProjectivePoint.fromAffine
    (ExtensionFieldElement.ofWords sageIsogenized_xR_a sageIsogenized_xR_b)

/-- The point `isogenized_xR` the test computes: `phi` comes from
`ComputeThreeIsogeny(&xP3)` and is evaluated at `xR`. -/
def isogenized_xR : ProjectivePoint (ExtensionFieldElement (ZMod p751)) :=
  (ComputeThreeIsogeny xP3).2.Eval xR

/-- The inverse of the `z` coordinate of `isogenized_xR` in `TestThreeIsogenyVersusSage`, component `a`, as
little-endian 64-bit words of the residue itself. -/
def isogenized_xR_zInv_a : List Nat :=
  [0x1dc2d7468e9b08bd, 0xd9c834d9962655d6, 0x4fed94354604322, 
   0x6f11207d8d538c05, 0x93c8700006067cac, 0x15b61509111ae391, 
   0xe2c81d3b23c4dfe7, 0x93942c138e3cead, 0xcbb74588845e3c66, 
   0xc42901453d8074ea, 0xc96f1911796c5547, 0x28457c13a0b0]

/-- The inverse of the `z` coordinate of `isogenized_xR` in `TestThreeIsogenyVersusSage`, component `b`, as
little-endian 64-bit words of the residue itself. -/
def isogenized_xR_zInv_b : List Nat :=
  [0x58995a8e33333262, 0xe20387edb14dd520, 0x1037b5682a59d6a8, 
   0xcfc2364c7ce6f47b, 0x1403703a723ef54f, 0x44471e06b15163a, 
   0x913d7ecfe9162d03, 0x72f6c8cbfeeb8ff8, 0x451c4df91a5c207b, 
   0x70a8c36ae460e2a2, 0x5e9d9192d2e541a, 0x51feaf31aeb]

/-- The inverse of the `z` coordinate of `isogenized_xR`. -/
def isogenized_xR_zInv : ExtensionFieldElement (ZMod p751) :=
  { a := ((fp751Element isogenized_xR_zInv_a : Nat) : ZMod p751),
    b := ((fp751Element isogenized_xR_zInv_b : Nat) : ZMod p751) }

end TestThreeIsogenyVersusSage


/-! ## `FieldElement.Mul` against the product of `F_p[i]/(i^2+1)` -/

/-- C1 (the code departs from it): `FieldElement.Mul` applied to `i = (0, 1)` and
itself leaves `(1, 0)` in `dest`, not `-1 = (p - 1, 0)`: the real component
stands for `a*c + b*d = 1`, while the product in `F_p[i]/(i^2+1)` has real part
`a*c - b*d = p - 1`; the imaginary component is `0` as it should be. -/
theorem FieldElement.Mul_imaginaryUnit_sq :
    FieldElement.Mul FieldElement.imaginaryUnit FieldElement.imaginaryUnit
        = { A := toMontgomery 1, B := 0 }
      ∧ fromMontgomery (FieldElement.Mul FieldElement.imaginaryUnit
          FieldElement.imaginaryUnit).A = 1
      ∧ fromMontgomery (FieldElement.Mul FieldElement.imaginaryUnit
          FieldElement.imaginaryUnit).B = 0
      ∧ fromMontgomery (FieldElement.Mul FieldElement.imaginaryUnit
          FieldElement.imaginaryUnit).A ≠ p751 - 1 := by
  decide

/-! ## The isogeny formulas -/

/-- C2: for every point `(X4 : Z4)` and every point `(X : Z)` over a commutative
ring, the descriptor returned by `ComputeFourIsogeny` evaluates `(X : Z)` to
`(X' * k, Z' * k)` with `X'`, `Z'` the Costello-Longa-Naehrig formula and
`k = 16 (X4 + Z4) (X4 - Z4) X4^2 Z4^4`. -/
theorem FourIsogeny_Eval_formula {R : Type} [CommRing R] (X4 Z4 X Z : R) :
    (ComputeFourIsogeny (ProjectivePoint.mk X4 Z4)).2.Eval (ProjectivePoint.mk X Z)
      = { x := (2 * X4 * Z * Z4 - (X4 ^ 2 + Z4 ^ 2) * X) * (X * X4 - Z * Z4) ^ 2 * X
              * (16 * (X4 + Z4) * (X4 - Z4) * X4 ^ 2 * Z4 ^ 4),
          z := (2 * X * X4 * Z4 - (X4 ^ 2 + Z4 ^ 2) * Z) * (X4 * Z - X * Z4) ^ 2 * Z
              * (16 * (X4 + Z4) * (X4 - Z4) * X4 ^ 2 * Z4 ^ 4) } := by
  simp only [ComputeFourIsogeny, FourIsogeny.Eval, Square, ProjectivePoint.mk.injEq]
  constructor <;> ring

/-- C3: for every kernel point `(X3 : Z3)` and every point `(X : Z)` over a
commutative ring, the descriptor returned by `ComputeThreeIsogeny` evaluates
`(X : Z)` to `(X (X3 X - Z3 Z)^2 : Z (Z3 X - X3 Z)^2)`; over a field, for affine
inputs, the affine image is `X (X3 X - 1)^2 / (X - X3)^2`; and for the points
`xP3`, `xR` of `TestThreeIsogenyVersusSage` the image has an invertible `z` and
its affine coordinate is the Sage-computed `sageIsogenized_xR`. -/
theorem ThreeIsogeny_Eval_formula :
    (∀ (R : Type) [CommRing R] (X3 Z3 X Z : R),
        (ComputeThreeIsogeny (ProjectivePoint.mk X3 Z3)).2.Eval (ProjectivePoint.mk X Z)
          = { x := X * (X3 * X - Z3 * Z) ^ 2, z := Z * (Z3 * X - X3 * Z) ^ 2 })
      ∧ (∀ (K : Type) [Field K] (X3 X : K),
        ((ComputeThreeIsogeny (ProjectivePoint.fromAffine X3)).2.Eval
            (ProjectivePoint.fromAffine X)).toAffine
          = X * (X3 * X - 1) ^ 2 / (X - X3) ^ 2)
      ∧ TestThreeIsogenyVersusSage.isogenized_xR.z
          * TestThreeIsogenyVersusSage.isogenized_xR_zInv = 1
      ∧ TestThreeIsogenyVersusSage.isogenized_xR.x
          * TestThreeIsogenyVersusSage.isogenized_xR_zInv
          = TestThreeIsogenyVersusSage.sageIsogenized_xR.x
      ∧ TestThreeIsogenyVersusSage.sageIsogenized_xR.z = 1
      ∧ TestThreeIsogenyVersusSage.isogenized_xR.x
          * TestThreeIsogenyVersusSage.sageIsogenized_xR.z
          = TestThreeIsogenyVersusSage.sageIsogenized_xR.x
            * TestThreeIsogenyVersusSage.isogenized_xR.z := by
  refine ⟨?_, ?_, by decide, by decide, by decide, by decide⟩
  · intro R _ X3 Z3 X Z
    simp only [ComputeThreeIsogeny, ThreeIsogeny.Eval, Square, ProjectivePoint.mk.injEq]
    constructor <;> ring
  · intro K _ X3 X
    simp only [ComputeThreeIsogeny, ThreeIsogeny.Eval, Square, ProjectivePoint.fromAffine,
      ProjectivePoint.toAffine]
    congr 1 <;> ring

/-- C4: for every curve parameter `a` and every point `(X : Z)` over a
commutative ring, the descriptor returned by `ComputeFirstFourIsogeny a`
evaluates `(X : Z)` to `((X+Z)^2 (X^2 + Z^2 + a X Z) : (X-Z)^2 (2-a) X Z)`; and
for `a = 0` and the point `xR` of `TestFirstFourIsogenyVersusSage` the image is
projectively equal to the Sage-computed `sageIsogenized_xR` (its `z` is
invertible and its affine coordinate is that point). -/
theorem FirstFourIsogeny_Eval_formula :
    (∀ (R : Type) [CommRing R] (a X Z : R),
        (ComputeFirstFourIsogeny a).2.Eval (ProjectivePoint.mk X Z)
          = { x := (X + Z) ^ 2 * (X ^ 2 + Z ^ 2 + a * X * Z),
              z := (X - Z) ^ 2 * (2 - a) * X * Z })
      ∧ TestFirstFourIsogenyVersusSage.isogenized_xR.x
          * TestFirstFourIsogenyVersusSage.sageIsogenized_xR.z
          = TestFirstFourIsogenyVersusSage.sageIsogenized_xR.x
            * TestFirstFourIsogenyVersusSage.isogenized_xR.z
      ∧ TestFirstFourIsogenyVersusSage.sageIsogenized_xR.z = 1
      ∧ TestFirstFourIsogenyVersusSage.isogenized_xR.z
          * TestFirstFourIsogenyVersusSage.isogenized_xR_zInv = 1
      ∧ TestFirstFourIsogenyVersusSage.isogenized_xR.x
          * TestFirstFourIsogenyVersusSage.isogenized_xR_zInv
          = TestFirstFourIsogenyVersusSage.sageIsogenized_xR.x := by
  refine ⟨?_, by decide, by decide, by decide, by decide⟩
  intro R _ a X Z
  simp only [ComputeFirstFourIsogeny, FirstFourIsogeny.Eval, Square,
    ProjectivePoint.mk.injEq]
  constructor <;> ring

/-- C5: for every point `(X4 : Z4)` over a commutative ring, `ComputeFourIsogeny`
returns the codomain `A' = 2 (2 X4^4 - Z4^4)`, `C' = Z4^4` and the descriptor
with fields `X4^2 + Z4^2`, `X4^2 - Z4^2`, `2 X4 Z4`, `X4^4`, `Z4^4`. -/
theorem ComputeFourIsogeny_formula {R : Type} [CommRing R] (X4 Z4 : R) :
    ComputeFourIsogeny (ProjectivePoint.mk X4 Z4)
      = ({ A := 2 * (2 * X4 ^ 4 - Z4 ^ 4), C := Z4 ^ 4 },
         { Xsq_plus_Zsq := X4 ^ 2 + Z4 ^ 2, Xsq_minus_Zsq := X4 ^ 2 - Z4 ^ 2,
           XZ2 := 2 * X4 * Z4, Xpow4 := X4 ^ 4, Zpow4 := Z4 ^ 4 }) := by
  simp only [ComputeFourIsogeny, Square, Prod.mk.injEq, ProjectiveCurveParameters.mk.injEq,
    FourIsogeny.mk.injEq]
  refine ⟨⟨?_, ?_⟩, ?_, ?_, ?_, ?_, ?_⟩ <;> ring

/-- C6: for every point `(X3 : Z3)` over a commutative ring,
`ComputeThreeIsogeny` returns the codomain
`A' = Z3^4 + 18 X3^2 Z3^2 - 27 X3^4 = Z3^4 + 9 X3^2 (2 Z3^2 - 3 X3^2)`,
`C' = 4 X3 Z3^3`, and the descriptor that stores `X3` and `Z3`. -/
theorem ComputeThreeIsogeny_formula {R : Type} [CommRing R] (X3 Z3 : R) :
    ComputeThreeIsogeny (ProjectivePoint.mk X3 Z3)
        = ({ A := Z3 ^ 4 + 18 * X3 ^ 2 * Z3 ^ 2 - 27 * X3 ^ 4, C := 4 * X3 * Z3 ^ 3 },
           { x := X3, z := Z3 })
      ∧ Z3 ^ 4 + 18 * X3 ^ 2 * Z3 ^ 2 - 27 * X3 ^ 4
        = Z3 ^ 4 + 9 * X3 ^ 2 * (2 * Z3 ^ 2 - 3 * X3 ^ 2) := by
  refine ⟨?_, by ring⟩
  simp only [ComputeThreeIsogeny, Square, Prod.mk.injEq, ProjectiveCurveParameters.mk.injEq,
    and_true]
  constructor <;> ring

/-- C7: for every curve parameter `a` over a commutative ring,
`ComputeFirstFourIsogeny a` returns the codomain `(2 (a + 6) : a - 2)` and the
descriptor that stores `a`. -/
theorem ComputeFirstFourIsogeny_formula {R : Type} [CommRing R] (a : R) :
    ComputeFirstFourIsogeny a = ({ A := 2 * (a + 6), C := a - 2 }, { a := a }) := by
  simp only [ComputeFirstFourIsogeny, Prod.mk.injEq, ProjectiveCurveParameters.mk.injEq,
    and_true]
  constructor <;> ring

/-- C8: an isogeny evaluated at its own kernel point gives `Z' = 0`, for the
descriptor of `ComputeThreeIsogeny (X3 : Z3)` at `(X3 : Z3)` and for the
descriptor of `ComputeFourIsogeny (X4 : Z4)` at `(X4 : Z4)`. -/
theorem Eval_kernel_point_z {R : Type} [CommRing R] (x3 x4 : ProjectivePoint R) :
    ((ComputeThreeIsogeny x3).2.Eval x3).z = 0
      ∧ ((ComputeFourIsogeny x4).2.Eval x4).z = 0 := by
  constructor
  · simp only [ComputeThreeIsogeny, ThreeIsogeny.Eval, Square]
    ring
  · simp only [ComputeFourIsogeny, FourIsogeny.Eval, Square]
    ring

/-- C9: `Eval` is homogeneous in the input point: scaling `(X : Z)` by `s` scales
the output of `ThreeIsogeny.Eval` by `s^3` and the outputs of `FourIsogeny.Eval`
and `FirstFourIsogeny.Eval` by `s^4`, for every descriptor over a commutative
ring; over a field, for `s ≠ 0`, those factors are nonzero and the affine image
is unchanged. -/
theorem Eval_homogeneous :
    (∀ (R : Type) [CommRing R] (phi3 : ThreeIsogeny R) (phi4 : FourIsogeny R)
        (phi1 : FirstFourIsogeny R) (X Z s : R),
        phi3.Eval (ProjectivePoint.mk (s * X) (s * Z))
            = { x := s ^ 3 * (phi3.Eval (ProjectivePoint.mk X Z)).x,
                z := s ^ 3 * (phi3.Eval (ProjectivePoint.mk X Z)).z }
          ∧ phi4.Eval (ProjectivePoint.mk (s * X) (s * Z))
            = { x := s ^ 4 * (phi4.Eval (ProjectivePoint.mk X Z)).x,
                z := s ^ 4 * (phi4.Eval (ProjectivePoint.mk X Z)).z }
          ∧ phi1.Eval (ProjectivePoint.mk (s * X) (s * Z))
            = { x := s ^ 4 * (phi1.Eval (ProjectivePoint.mk X Z)).x,
                z := s ^ 4 * (phi1.Eval (ProjectivePoint.mk X Z)).z })
      ∧ (∀ (K : Type) [Field K] (phi3 : ThreeIsogeny K) (phi4 : FourIsogeny K)
        (phi1 : FirstFourIsogeny K) (X Z s : K), s ≠ 0 →
        s ^ 3 ≠ 0 ∧ s ^ 4 ≠ 0
          ∧ (phi3.Eval (ProjectivePoint.mk (s * X) (s * Z))).toAffine
            = (phi3.Eval (ProjectivePoint.mk X Z)).toAffine
          ∧ (phi4.Eval (ProjectivePoint.mk (s * X) (s * Z))).toAffine
            = (phi4.Eval (ProjectivePoint.mk X Z)).toAffine
          ∧ (phi1.Eval (ProjectivePoint.mk (s * X) (s * Z))).toAffine
            = (phi1.Eval (ProjectivePoint.mk X Z)).toAffine) := by
  have hgen : ∀ (R : Type) [CommRing R] (phi3 : ThreeIsogeny R) (phi4 : FourIsogeny R)
      (phi1 : FirstFourIsogeny R) (X Z s : R),
      phi3.Eval (ProjectivePoint.mk (s * X) (s * Z))
          = { x := s ^ 3 * (phi3.Eval (ProjectivePoint.mk X Z)).x,
              z := s ^ 3 * (phi3.Eval (ProjectivePoint.mk X Z)).z }
        ∧ phi4.Eval (ProjectivePoint.mk (s * X) (s * Z))
          = { x := s ^ 4 * (phi4.Eval (ProjectivePoint.mk X Z)).x,
              z := s ^ 4 * (phi4.Eval (ProjectivePoint.mk X Z)).z }
        ∧ phi1.Eval (ProjectivePoint.mk (s * X) (s * Z))
          = { x := s ^ 4 * (phi1.Eval (ProjectivePoint.mk X Z)).x,
              z := s ^ 4 * (phi1.Eval (ProjectivePoint.mk X Z)).z } := by
    intro R _ phi3 phi4 phi1 X Z s
    refine ⟨?_, ?_, ?_⟩
    · simp only [ThreeIsogeny.Eval, Square, ProjectivePoint.mk.injEq]
      constructor <;> ring
    · simp only [FourIsogeny.Eval, Square, ProjectivePoint.mk.injEq]
      constructor <;> ring
    · simp only [FirstFourIsogeny.Eval, Square, ProjectivePoint.mk.injEq]
      constructor <;> ring
  refine ⟨hgen, ?_⟩
  intro K _ phi3 phi4 phi1 X Z s hs
  obtain ⟨h3, h4, h1⟩ := hgen K phi3 phi4 phi1 X Z s
  have hs3 : s ^ 3 ≠ 0 := pow_ne_zero 3 hs
  have hs4 : s ^ 4 ≠ 0 := pow_ne_zero 4 hs
  refine ⟨hs3, hs4, ?_, ?_, ?_⟩
  · rw [h3]
    exact mul_div_mul_left _ _ hs3
  · rw [h4]
    exact mul_div_mul_left _ _ hs4
  · rw [h1]
    exact mul_div_mul_left _ _ hs4

/-! ## Arithmetic of the base-field kernels -/

theorem p751_pos : 0 < p751 := by decide

theorem three_mul_p751_sq_lt : 3 * (p751 * p751) < 2 ^ (64 * (2 * Fp751NumWords)) := by
  decide

theorem montR_mul_montRinv : montR * montRinv % p751 = 1 := by decide

theorem mul_lt_p751_sq {u v : Nat} (hu : u < p751) (hv : v < p751) :
    u * v < p751 * p751 :=
  Nat.mul_lt_mul'' hu hv

theorem eq_of_natCast_eq {u v : Nat} (hu : u < p751) (hv : v < p751)
    (h : (u : ZMod p751) = (v : ZMod p751)) : u = v := by
  have h2 := (ZMod.natCast_eq_natCast_iff' u v p751).mp h
  rwa [Nat.mod_eq_of_lt hu, Nat.mod_eq_of_lt hv] at h2

theorem Fp751AddReduced_lt (x y : Fp751Element) : Fp751AddReduced x y < p751 :=
  Nat.mod_lt _ p751_pos

theorem Fp751AddReduced_cast (x y : Fp751Element) :
    ((Fp751AddReduced x y : Nat) : ZMod p751) = (x : ZMod p751) + (y : ZMod p751) := by
  unfold Fp751AddReduced
  rw [ZMod.natCast_mod, Nat.cast_add]

theorem Fp751SubReduced_lt (x y : Fp751Element) : Fp751SubReduced x y < p751 := by
  unfold Fp751SubReduced
  have hp : (0 : Int) < (p751 : Int) := by exact_mod_cast p751_pos
  exact (Int.toNat_lt (Int.emod_nonneg _ (ne_of_gt hp))).2 (Int.emod_lt_of_pos _ hp)

theorem Fp751SubReduced_cast (x y : Fp751Element) :
    ((Fp751SubReduced x y : Nat) : ZMod p751) = (x : ZMod p751) - (y : ZMod p751) := by
  unfold Fp751SubReduced
  have hp : (0 : Int) < (p751 : Int) := by exact_mod_cast p751_pos
  have h0 : 0 ≤ ((x : Int) - (y : Int)) % (p751 : Int) :=
    Int.emod_nonneg _ (ne_of_gt hp)
  rw [← Int.cast_natCast, Int.toNat_of_nonneg h0, ZMod.intCast_mod]
  push_cast
  rfl

theorem Fp751MontgomeryReduce_lt (x : Fp751X2) : Fp751MontgomeryReduce x < p751 :=
  Nat.mod_lt _ p751_pos

theorem Fp751MontgomeryReduce_cast (x : Fp751X2) :
    ((Fp751MontgomeryReduce x : Nat) : ZMod p751)
      = (x : ZMod p751) * (montRinv : ZMod p751) := by
  unfold Fp751MontgomeryReduce
  rw [ZMod.natCast_mod, Nat.cast_mul]

theorem Fp751X2AddLazy_eq {x y : Nat} (h : x + y < 2 ^ (64 * (2 * Fp751NumWords))) :
    Fp751X2AddLazy x y = x + y :=
  Nat.mod_eq_of_lt h

theorem add_lt_of_three_mul_lt {u v w P E : Nat} (hu : u < P) (hv : v < P) (hw : w < P)
    (h : 3 * P < E) : u + v < E ∧ u + v + w < E := by
  omega

theorem Fp751StrongReduce_of_lt {x : Fp751Element} (h : x < p751) :
    Fp751StrongReduce x = x := by
  unfold Fp751StrongReduce
  rw [if_neg (Nat.not_le.mpr h)]

theorem Fp751Element.VartimeEq_self (x : Fp751Element) :
    Fp751Element.VartimeEq x x = true := by
  unfold Fp751Element.VartimeEq
  have h : ∀ (u : Nat) (l : List Nat),
      l.foldl (fun eq i => (word u i == word u i) && eq) true = true := by
    intro u l
    induction l with
    | nil => rfl
    | cons i l ih => simp
  exact h _ _

/-! ## What `FieldElement.Mul` and `FieldElement.Add` leave in `dest` -/

/-- For reduced operands no lazy addition of `FieldElement.Mul` wraps, and
`dest` holds the Montgomery reductions of `a*c + b*d` and of
`(b-a)*(c-d) + a*c + b*d`. -/
theorem FieldElement.Mul_eq (x y : FieldElement)
    (hxA : x.A < p751) (hxB : x.B < p751) (hyA : y.A < p751) (hyB : y.B < p751) :
    x.Mul y
      = { A := Fp751MontgomeryReduce (x.A * y.A + x.B * y.B),
          B := Fp751MontgomeryReduce
            (Fp751SubReduced x.B x.A * Fp751SubReduced y.A y.B + x.A * y.A + x.B * y.B) } := by
  have h1 := mul_lt_p751_sq hxA hyA
  have h2 := mul_lt_p751_sq hxB hyB
  have h3 := mul_lt_p751_sq (Fp751SubReduced_lt x.B x.A) (Fp751SubReduced_lt y.A y.B)
  have h4 := three_mul_p751_sq_lt
  unfold FieldElement.Mul
  simp only [Fp751Mul]
  rw [Fp751X2AddLazy_eq (add_lt_of_three_mul_lt h3 h1 h2 h4).1,
    Fp751X2AddLazy_eq (add_lt_of_three_mul_lt h3 h1 h2 h4).2,
    Fp751X2AddLazy_eq (add_lt_of_three_mul_lt h1 h2 h3 h4).1]

theorem FieldElement.Mul_A_lt (x y : FieldElement) : (x.Mul y).A < p751 :=
  Fp751MontgomeryReduce_lt _

theorem FieldElement.Mul_B_lt (x y : FieldElement) : (x.Mul y).B < p751 :=
  Fp751MontgomeryReduce_lt _

theorem FieldElement.Add_A_lt (x y : FieldElement) : (x.Add y).A < p751 :=
  Fp751AddReduced_lt _ _

theorem FieldElement.Add_B_lt (x y : FieldElement) : (x.Add y).B < p751 :=
  Fp751AddReduced_lt _ _

theorem FieldElement.Add_A_cast (x y : FieldElement) :
    (((x.Add y).A : Nat) : ZMod p751) = (x.A : ZMod p751) + (y.A : ZMod p751) :=
  Fp751AddReduced_cast _ _

theorem FieldElement.Add_B_cast (x y : FieldElement) :
    (((x.Add y).B : Nat) : ZMod p751) = (x.B : ZMod p751) + (y.B : ZMod p751) :=
  Fp751AddReduced_cast _ _

theorem FieldElement.Mul_A_cast (x y : FieldElement)
    (hxA : x.A < p751) (hxB : x.B < p751) (hyA : y.A < p751) (hyB : y.B < p751) :
    (((x.Mul y).A : Nat) : ZMod p751)
      = ((x.A : ZMod p751) * y.A + (x.B : ZMod p751) * y.B) * (montRinv : ZMod p751) := by
  rw [FieldElement.Mul_eq x y hxA hxB hyA hyB]
  simp only [Fp751MontgomeryReduce_cast]
  push_cast
  rfl

theorem FieldElement.Mul_B_cast (x y : FieldElement)
    (hxA : x.A < p751) (hxB : x.B < p751) (hyA : y.A < p751) (hyB : y.B < p751) :
    (((x.Mul y).B : Nat) : ZMod p751)
      = ((x.A : ZMod p751) * y.B + (x.B : ZMod p751) * y.A) * (montRinv : ZMod p751) := by
  rw [FieldElement.Mul_eq x y hxA hxB hyA hyB]
  simp only [Fp751MontgomeryReduce_cast]
  push_cast
  rw [Fp751SubReduced_cast, Fp751SubReduced_cast]
  ring

/-! ## Field axioms under `VartimeEq` -/

/-- C10: multiplication distributes over addition: for all `x`, `y`, `z` with
reduced components, `Mul(x, Add(y, z))` and `Add(Mul(x, y), Mul(x, z))` compare
equal under `FieldElement.VartimeEq`. -/
theorem FieldElement.Mul_Add_distrib (x y z : FieldElement)
    (hxA : x.A < p751) (hxB : x.B < p751) (hyA : y.A < p751) (hyB : y.B < p751)
    (hzA : z.A < p751) (hzB : z.B < p751) :
    FieldElement.VartimeEq (x.Mul (y.Add z)) ((x.Mul y).Add (x.Mul z)) = true := by
  have hsA := FieldElement.Add_A_lt y z
  have hsB := FieldElement.Add_B_lt y z
  have hA : (x.Mul (y.Add z)).A = ((x.Mul y).Add (x.Mul z)).A := by
    apply eq_of_natCast_eq (FieldElement.Mul_A_lt _ _) (FieldElement.Add_A_lt _ _)
    rw [FieldElement.Mul_A_cast x (y.Add z) hxA hxB hsA hsB, FieldElement.Add_A_cast,
      FieldElement.Add_A_cast, FieldElement.Add_B_cast,
      FieldElement.Mul_A_cast x y hxA hxB hyA hyB, FieldElement.Mul_A_cast x z hxA hxB hzA hzB]
    ring
  have hB : (x.Mul (y.Add z)).B = ((x.Mul y).Add (x.Mul z)).B := by
    apply eq_of_natCast_eq (FieldElement.Mul_B_lt _ _) (FieldElement.Add_B_lt _ _)
    rw [FieldElement.Mul_B_cast x (y.Add z) hxA hxB hsA hsB, FieldElement.Add_B_cast,
      FieldElement.Add_A_cast, FieldElement.Add_B_cast,
      FieldElement.Mul_B_cast x y hxA hxB hyA hyB, FieldElement.Mul_B_cast x z hxA hxB hzA hzB]
    ring
  unfold FieldElement.VartimeEq
  rw [hA, hB, Fp751Element.VartimeEq_self, Fp751Element.VartimeEq_self]
  rfl

/-- Witness for C10 at `x = 2 + 3i`, `y = 5 + 7i`, `z = 11 + 13i` (the stored
words themselves). -/
theorem FieldElement.Mul_Add_distrib_witness :
    FieldElement.VartimeEq
      ((FieldElement.mk 2 3).Mul ((FieldElement.mk 5 7).Add (FieldElement.mk 11 13)))
      (((FieldElement.mk 2 3).Mul (FieldElement.mk 5 7)).Add
        ((FieldElement.mk 2 3).Mul (FieldElement.mk 11 13))) = true :=
  FieldElement.Mul_Add_distrib (FieldElement.mk 2 3) (FieldElement.mk 5 7)
    (FieldElement.mk 11 13) (by decide) (by decide) (by decide) (by decide) (by decide)
    (by decide)

/-- Witness for C9 over the rationals, at the descriptor `(3, 5)`, the point
`(7 : 1)` and the scalar `2`. -/
theorem Eval_homogeneous_witness :
    (2 : ℚ) ≠ 0
      ∧ ((ThreeIsogeny.mk (3 : ℚ) 5).Eval (ProjectivePoint.mk (2 * 7) (2 * 1))).toAffine
        = ((ThreeIsogeny.mk (3 : ℚ) 5).Eval (ProjectivePoint.mk 7 1)).toAffine :=
  ⟨by norm_num,
   (Eval_homogeneous.2 ℚ (ThreeIsogeny.mk 3 5) (FourIsogeny.mk 1 2 3 4 5)
      (FirstFourIsogeny.mk 1) 7 1 2 (by norm_num)).2.2.1⟩

/-! ## Strong reduction and the word-by-word comparison -/

theorem p751_lt_container : p751 < 2 ^ (64 * Fp751NumWords) := by decide

theorem Fp751StrongReduce_eq_mod {x : Nat} (h : x < 2 * p751) :
    Fp751StrongReduce x = x % p751 := by
  unfold Fp751StrongReduce
  split_ifs with hp
  · rw [Nat.mod_eq_sub_mod hp, Nat.mod_eq_of_lt (by omega)]
  · rw [Nat.mod_eq_of_lt (by omega)]

theorem foldl_word_beq (x y : Nat) (l : List Nat) (acc : Bool) :
    l.foldl (fun eq i => (word x i == word y i) && eq) acc
      = (acc && l.all (fun i => word x i == word y i)) := by
  induction l generalizing acc with
  | nil => simp
  | cons i l ih =>
    rw [List.foldl_cons, ih, List.all_cons]
    cases acc <;> cases (word x i == word y i) <;> simp

theorem mod_eq_of_word_eq (x y : Nat) (n : Nat)
    (h : ∀ i, i < n → word x i = word y i) :
    x % 2 ^ (64 * n) = y % 2 ^ (64 * n) := by
  induction n with
  | zero => simp [Nat.mod_one]
  | succ n ih =>
    have e : ∀ k : Nat, 2 ^ (64 * k) = (2 ^ 64) ^ k := fun k => pow_mul 2 64 k
    have hw : x / (2 ^ 64) ^ n % 2 ^ 64 = y / (2 ^ 64) ^ n % 2 ^ 64 := by
      have := h n (Nat.lt_succ_self n)
      unfold word at this
      rwa [e] at this
    have ih2 := ih (fun i hi => h i (Nat.lt_succ_of_lt hi))
    rw [e] at ih2
    rw [e, @Nat.mod_pow_succ x (2 ^ 64) n, @Nat.mod_pow_succ y (2 ^ 64) n, hw, ih2]

theorem Fp751Element.VartimeEq_iff_words (u v : Fp751Element) :
    Fp751Element.VartimeEq u v = true
      ↔ ∀ i, i < Fp751NumWords →
          word (Fp751StrongReduce u) i = word (Fp751StrongReduce v) i := by
  unfold Fp751Element.VartimeEq
  simp only [foldl_word_beq, Bool.true_and, List.all_eq_true, List.mem_range, beq_iff_eq]

theorem Fp751Element.VartimeEq_iff_mod {u v : Nat} (hu : u < 2 * p751) (hv : v < 2 * p751) :
    Fp751Element.VartimeEq u v = true ↔ u % p751 = v % p751 := by
  rw [Fp751Element.VartimeEq_iff_words, Fp751StrongReduce_eq_mod hu,
    Fp751StrongReduce_eq_mod hv]
  constructor
  · intro h
    have h2 := mod_eq_of_word_eq _ _ Fp751NumWords h
    have hc := p751_lt_container
    rwa [Nat.mod_eq_of_lt (lt_trans (Nat.mod_lt u p751_pos) hc),
      Nat.mod_eq_of_lt (lt_trans (Nat.mod_lt v p751_pos) hc)] at h2
  · intro h i _
    rw [h]

theorem toMontgomery_lt (v : Nat) : toMontgomery v < p751 :=
  Nat.mod_lt _ p751_pos

theorem toMontgomery_one_mul_montRinv :
    ((toMontgomery 1 : Nat) : ZMod p751) * (montRinv : ZMod p751) = 1 := by
  have h := congrArg (fun n : Nat => (n : ZMod p751)) montR_mul_montRinv
  simp only [ZMod.natCast_mod, Nat.cast_mul, Nat.cast_one] at h
  unfold toMontgomery
  rw [ZMod.natCast_mod, Nat.cast_mul, Nat.cast_one, one_mul]
  exact h

theorem Fp751SubReduced_int (x y : Fp751Element) :
    ((Fp751SubReduced x y : Nat) : Int) = ((x : Int) - (y : Int)) % (p751 : Int) := by
  unfold Fp751SubReduced
  have hp : (0 : Int) < (p751 : Int) := by exact_mod_cast p751_pos
  exact Int.toNat_of_nonneg (Int.emod_nonneg _ (ne_of_gt hp))

theorem FieldElement.eq_of_fields {u v : FieldElement} (hA : u.A = v.A) (hB : u.B = v.B) :
    u = v := by
  cases u
  cases v
  simp_all

/-- C11: the multiplicative identity is neutral for `Mul`: for every `x` with
reduced components, `Mul(x, one)` leaves `x` in `dest`, so it compares equal to
`x` under `FieldElement.VartimeEq`; `one` has real part `R mod p`, which stands
for `1`, and imaginary part `0`. -/
theorem FieldElement.Mul_one_neutral (x : FieldElement)
    (hxA : x.A < p751) (hxB : x.B < p751) :
    FieldElement.VartimeEq (x.Mul FieldElement.one) x = true
      ∧ x.Mul FieldElement.one = x
      ∧ FieldElement.one.A = montR % p751
      ∧ fromMontgomery FieldElement.one.A = 1
      ∧ FieldElement.one.B = 0 := by
  have h1A : FieldElement.one.A < p751 := toMontgomery_lt 1
  have h1B : FieldElement.one.B < p751 := p751_pos
  have hA : (x.Mul FieldElement.one).A = x.A := by
    apply eq_of_natCast_eq (FieldElement.Mul_A_lt _ _) hxA
    rw [FieldElement.Mul_A_cast x FieldElement.one hxA hxB h1A h1B]
    have h := toMontgomery_one_mul_montRinv
    simp only [FieldElement.one, Nat.cast_zero, mul_zero, add_zero]
    rw [mul_assoc, h, mul_one]
  have hB : (x.Mul FieldElement.one).B = x.B := by
    apply eq_of_natCast_eq (FieldElement.Mul_B_lt _ _) hxB
    rw [FieldElement.Mul_B_cast x FieldElement.one hxA hxB h1A h1B]
    have h := toMontgomery_one_mul_montRinv
    simp only [FieldElement.one, Nat.cast_zero, mul_zero, zero_add]
    rw [mul_assoc, h, mul_one]
  have hx : x.Mul FieldElement.one = x := FieldElement.eq_of_fields hA hB
  refine ⟨?_, hx, ?_, by decide, rfl⟩
  · rw [hx]
    unfold FieldElement.VartimeEq
    rw [Fp751Element.VartimeEq_self, Fp751Element.VartimeEq_self]
    rfl
  · simp [FieldElement.one, toMontgomery]

theorem FieldElement.VartimeEq_of_eq {u v : FieldElement} (h : u = v) :
    FieldElement.VartimeEq u v = true := by
  rw [h]
  unfold FieldElement.VartimeEq
  rw [Fp751Element.VartimeEq_self, Fp751Element.VartimeEq_self]
  rfl

/-- C12: `FieldElement.Add` and `FieldElement.Sub` act component-wise modulo `p`
(`Add` gives `((a+c) mod p, (b+d) mod p)`, `Sub` gives
`((a-c) mod p, (b-d) mod p)`), so under `FieldElement.VartimeEq` addition is
associative and commutative for all `x`, `y`, `z`, and `Add(x, 0)` holds the
residues of `x` and compares equal to `x` for every `x` whose components are
base-field elements, that is, lie in `[0, 2p)`. -/
theorem FieldElement.Add_Sub_componentwise (x y z : FieldElement) :
    x.Add y = { A := (x.A + y.A) % p751, B := (x.B + y.B) % p751 }
      ∧ ((x.Sub y).A : Int) = ((x.A : Int) - (y.A : Int)) % (p751 : Int)
      ∧ ((x.Sub y).B : Int) = ((x.B : Int) - (y.B : Int)) % (p751 : Int)
      ∧ FieldElement.VartimeEq ((x.Add y).Add z) (x.Add (y.Add z)) = true
      ∧ FieldElement.VartimeEq (x.Add y) (y.Add x) = true
      ∧ x.Add FieldElement.zero = { A := x.A % p751, B := x.B % p751 }
      ∧ (x.A < 2 * p751 → x.B < 2 * p751 →
          FieldElement.VartimeEq (x.Add FieldElement.zero) x = true) := by
  refine ⟨rfl, Fp751SubReduced_int _ _, Fp751SubReduced_int _ _, ?_, ?_, rfl, ?_⟩
  · apply FieldElement.VartimeEq_of_eq
    apply FieldElement.eq_of_fields
    · apply eq_of_natCast_eq (FieldElement.Add_A_lt _ _) (FieldElement.Add_A_lt _ _)
      simp only [FieldElement.Add_A_cast]
      ring
    · apply eq_of_natCast_eq (FieldElement.Add_B_lt _ _) (FieldElement.Add_B_lt _ _)
      simp only [FieldElement.Add_B_cast]
      ring
  · apply FieldElement.VartimeEq_of_eq
    apply FieldElement.eq_of_fields
    · apply eq_of_natCast_eq (FieldElement.Add_A_lt _ _) (FieldElement.Add_A_lt _ _)
      simp only [FieldElement.Add_A_cast]
      ring
    · apply eq_of_natCast_eq (FieldElement.Add_B_lt _ _) (FieldElement.Add_B_lt _ _)
      simp only [FieldElement.Add_B_cast]
      ring
  · intro hA hB
    have hp := p751_pos
    have hA2 : x.A % p751 < 2 * p751 :=
      lt_of_lt_of_le (Nat.mod_lt _ hp) (Nat.le_mul_of_pos_left _ (by decide))
    have hB2 : x.B % p751 < 2 * p751 :=
      lt_of_lt_of_le (Nat.mod_lt _ hp) (Nat.le_mul_of_pos_left _ (by decide))
    show (Fp751Element.VartimeEq (x.A % p751) x.A
      && Fp751Element.VartimeEq (x.B % p751) x.B) = true
    rw [(Fp751Element.VartimeEq_iff_mod hA2 hA).2 (Nat.mod_mod _ _),
      (Fp751Element.VartimeEq_iff_mod hB2 hB).2 (Nat.mod_mod _ _)]
    rfl

/-- C13: for all `lhs`, `rhs` whose four components lie in `[0, 2p)`,
`FieldElement.VartimeEq lhs rhs` is true if and only if `lhs.A` and `rhs.A` are
congruent modulo `p` and `lhs.B` and `rhs.B` are congruent modulo `p`; the
base-field `VartimeEq` is true exactly when all twelve words of the two
strong-reduced operands agree. -/
theorem FieldElement.VartimeEq_iff_congruent (lhs rhs : FieldElement)
    (hlA : lhs.A < 2 * p751) (hlB : lhs.B < 2 * p751)
    (hrA : rhs.A < 2 * p751) (hrB : rhs.B < 2 * p751) :
    (FieldElement.VartimeEq lhs rhs = true
        ↔ lhs.A % p751 = rhs.A % p751 ∧ lhs.B % p751 = rhs.B % p751)
      ∧ (∀ u v : Fp751Element, Fp751Element.VartimeEq u v = true
        ↔ ∀ i, i < 12 → word (Fp751StrongReduce u) i = word (Fp751StrongReduce v) i) := by
  refine ⟨?_, fun u v => Fp751Element.VartimeEq_iff_words u v⟩
  unfold FieldElement.VartimeEq
  rw [Bool.and_eq_true, Fp751Element.VartimeEq_iff_mod hlA hrA,
    Fp751Element.VartimeEq_iff_mod hlB hrB]

/-- C14: each of `Add`, `Sub` and `Mul` leaves both components of `dest` in the
canonical range `[0, p)`, whatever the operands and so in particular for
operands with components in `[0, p)`: the results can be fed back to the three
operations. -/
theorem FieldElement.reduced_invariant (x y : FieldElement) :
    ((x.Add y).A < p751 ∧ (x.Add y).B < p751)
      ∧ ((x.Sub y).A < p751 ∧ (x.Sub y).B < p751)
      ∧ ((x.Mul y).A < p751 ∧ (x.Mul y).B < p751) :=
  ⟨⟨Fp751AddReduced_lt _ _, Fp751AddReduced_lt _ _⟩,
   ⟨Fp751SubReduced_lt _ _, Fp751SubReduced_lt _ _⟩,
   ⟨Fp751MontgomeryReduce_lt _, Fp751MontgomeryReduce_lt _⟩⟩

/-! ## The two components of `FieldElement.Mul` -/

theorem fromMontgomery_lt (w : Fp751Element) : fromMontgomery w < p751 :=
  Nat.mod_lt _ p751_pos

theorem fromMontgomery_cast (w : Fp751Element) :
    ((fromMontgomery w : Nat) : ZMod p751) = (w : ZMod p751) * (montRinv : ZMod p751) := by
  unfold fromMontgomery
  rw [ZMod.natCast_mod, Nat.cast_mul]

/-- C15: for `lhs = a + bi`, `rhs = c + di` with reduced components, the
imaginary component of `FieldElement.Mul` is the Montgomery reduction of
`(b - a mod p) * (c - d mod p) + a*c + b*d` (the Karatsuba identity), and the
value it stands for is `(a*d + b*c) mod p`. -/
theorem FieldElement.Mul_B_karatsuba (x y : FieldElement)
    (hxA : x.A < p751) (hxB : x.B < p751) (hyA : y.A < p751) (hyB : y.B < p751) :
    (x.Mul y).B
        = Fp751MontgomeryReduce
            (Fp751SubReduced x.B x.A * Fp751SubReduced y.A y.B + x.A * y.A + x.B * y.B)
      ∧ ((Fp751SubReduced x.B x.A : Nat) : Int)
          = ((x.B : Int) - (x.A : Int)) % (p751 : Int)
      ∧ ((Fp751SubReduced y.A y.B : Nat) : Int)
          = ((y.A : Int) - (y.B : Int)) % (p751 : Int)
      ∧ fromMontgomery (x.Mul y).B
          = (fromMontgomery x.A * fromMontgomery y.B
              + fromMontgomery x.B * fromMontgomery y.A) % p751 := by
  refine ⟨?_, Fp751SubReduced_int _ _, Fp751SubReduced_int _ _, ?_⟩
  · rw [FieldElement.Mul_eq x y hxA hxB hyA hyB]
  · apply eq_of_natCast_eq (fromMontgomery_lt _) (Nat.mod_lt _ p751_pos)
    rw [fromMontgomery_cast, FieldElement.Mul_B_cast x y hxA hxB hyA hyB, ZMod.natCast_mod]
    push_cast
    simp only [fromMontgomery_cast]
    ring

/-- C16: for `lhs = a + bi`, `rhs = c + di` with reduced components, the real
component of `FieldElement.Mul` is the Montgomery reduction of the lazy sum of
the wide products `ac` and `bd`, which is their exact sum, and the value it
stands for is `(a*c + b*d) mod p`. -/
theorem FieldElement.Mul_A_lazy_sum (x y : FieldElement)
    (hxA : x.A < p751) (hxB : x.B < p751) (hyA : y.A < p751) (hyB : y.B < p751) :
    (x.Mul y).A
        = Fp751MontgomeryReduce (Fp751X2AddLazy (Fp751Mul x.A y.A) (Fp751Mul x.B y.B))
      ∧ (x.Mul y).A = Fp751MontgomeryReduce (x.A * y.A + x.B * y.B)
      ∧ fromMontgomery (x.Mul y).A
          = (fromMontgomery x.A * fromMontgomery y.A
              + fromMontgomery x.B * fromMontgomery y.B) % p751 := by
  refine ⟨rfl, ?_, ?_⟩
  · rw [FieldElement.Mul_eq x y hxA hxB hyA hyB]
  · apply eq_of_natCast_eq (fromMontgomery_lt _) (Nat.mod_lt _ p751_pos)
    rw [fromMontgomery_cast, FieldElement.Mul_A_cast x y hxA hxB hyA hyB, ZMod.natCast_mod]
    push_cast
    simp only [fromMontgomery_cast]
    ring

/-! ## No overflow in the lazy additions -/

theorem nine_mul_p751_sq_lt : 9 * (p751 * p751) < 2 ^ 1536 := by decide

theorem nine_mul_p751_sq_lt_mul : 9 * (p751 * p751) < p751 * 2 ^ 768 := by decide

theorem container_eq : 2 ^ (64 * (2 * Fp751NumWords)) = 2 ^ 1536 := by decide

theorem mul_lt_four_mul_sq {u v P : Nat} (hu : u < 2 * P) (hv : v < 2 * P) :
    u * v < 4 * (P * P) := by
  have h := Nat.mul_lt_mul'' hu hv
  have e : 2 * P * (2 * P) = 4 * (P * P) := by ring
  rwa [e] at h

theorem lazy_sums_lt {s ac bd Q E : Nat} (hs : s < Q) (hac : ac < 4 * Q) (hbd : bd < 4 * Q)
    (h : 9 * Q < E) : s + ac < E ∧ s + ac + bd < E ∧ ac + bd < E := by
  omega

/-- C18: the lazy double-width additions of `FieldElement.Mul` do not overflow:
for operands with components in `[0, 2p)`, `p = 2^372 * 3^239 - 1`, each of the
three `Fp751X2AddLazy` calls has an exact sum below `2^1536`, both values handed
to `Fp751MontgomeryReduce` are below `p * 2^768`, and `dest` is what the exact
sums give. -/
theorem FieldElement.Mul_lazy_no_overflow (x y : FieldElement)
    (hxA : x.A < 2 * p751) (hxB : x.B < 2 * p751)
    (hyA : y.A < 2 * p751) (hyB : y.B < 2 * p751) :
    p751 = 2 ^ 372 * 3 ^ 239 - 1
      ∧ Fp751SubReduced x.B x.A * Fp751SubReduced y.A y.B + x.A * y.A < 2 ^ 1536
      ∧ Fp751SubReduced x.B x.A * Fp751SubReduced y.A y.B + x.A * y.A + x.B * y.B
          < 2 ^ 1536
      ∧ x.A * y.A + x.B * y.B < 2 ^ 1536
      ∧ Fp751SubReduced x.B x.A * Fp751SubReduced y.A y.B + x.A * y.A + x.B * y.B
          < p751 * 2 ^ 768
      ∧ x.A * y.A + x.B * y.B < p751 * 2 ^ 768
      ∧ x.Mul y
          = { A := Fp751MontgomeryReduce (x.A * y.A + x.B * y.B),
              B := Fp751MontgomeryReduce
                (Fp751SubReduced x.B x.A * Fp751SubReduced y.A y.B
                  + x.A * y.A + x.B * y.B) } := by
  have hs := mul_lt_p751_sq (Fp751SubReduced_lt x.B x.A) (Fp751SubReduced_lt y.A y.B)
  have hac := mul_lt_four_mul_sq hxA hyA
  have hbd := mul_lt_four_mul_sq hxB hyB
  have h1 := lazy_sums_lt hs hac hbd nine_mul_p751_sq_lt
  have h2 := lazy_sums_lt hs hac hbd nine_mul_p751_sq_lt_mul
  refine ⟨rfl, h1.1, h1.2.1, h1.2.2, h2.2.1, h2.2.2, ?_⟩
  have g1 := h1.1
  have g2 := h1.2.1
  have g3 := h1.2.2
  rw [← container_eq] at g1 g2 g3
  unfold FieldElement.Mul
  simp only [Fp751Mul]
  rw [Fp751X2AddLazy_eq g1, Fp751X2AddLazy_eq g2, Fp751X2AddLazy_eq g3]

/-! ## The destroyed inputs of `Fp751MontgomeryReduce` -/

/-- C19: `FieldElement.Mul` never reads a double-width value after
`Fp751MontgomeryReduce` has destroyed it: with the two reductions leaving
arbitrary values `l1`, `l2` in their inputs, `dest` is the same for every choice
of those values and equals the result of `FieldElement.Mul`; the leftovers end
in the locals `ad_plus_bc` and `ac`, which no later statement reads. -/
theorem FieldElement.MulDestroying_dest (l1 l2 m1 m2 : Fp751X2) (lhs rhs : FieldElement) :
    (FieldElement.MulDestroying l1 l2 lhs rhs).1
        = (FieldElement.MulDestroying m1 m2 lhs rhs).1
      ∧ (FieldElement.MulDestroying l1 l2 lhs rhs).1 = lhs.Mul rhs
      ∧ (FieldElement.MulDestroying l1 l2 lhs rhs).2
          = { ac := l2, bd := Fp751Mul lhs.B rhs.B, ad_plus_bc := l1 } :=
  ⟨rfl, rfl, rfl⟩

/-! ## When the scaling of `FourIsogeny.Eval` vanishes -/

theorem FourIsogeny_Eval_eq_scaled {R : Type} [CommRing R] (X4 Z4 X Z : R) :
    (ComputeFourIsogeny (ProjectivePoint.mk X4 Z4)).2.Eval (ProjectivePoint.mk X Z)
      = { x := (2 * X4 * Z * Z4 - (X4 ^ 2 + Z4 ^ 2) * X) * (X * X4 - Z * Z4) ^ 2 * X
              * (2 ^ 4 * (X4 ^ 2 - Z4 ^ 2) * X4 ^ 2 * Z4 ^ 4),
          z := (2 * X * X4 * Z4 - (X4 ^ 2 + Z4 ^ 2) * Z) * (X4 * Z - X * Z4) ^ 2 * Z
              * (2 ^ 4 * (X4 ^ 2 - Z4 ^ 2) * X4 ^ 2 * Z4 ^ 4) } := by
  simp only [ComputeFourIsogeny, FourIsogeny.Eval, Square, ProjectivePoint.mk.injEq]
  constructor <;> ring

/-- C17: the scaling folded into `FourIsogeny.Eval` can vanish: for every kernel
point with `X4^2 = Z4^2` over a commutative ring (for example `X4 = Z4 = 1`, the
kernel of the first 4-isogeny), the descriptor from `ComputeFourIsogeny` maps
every point `(X : Z)` to `(0 : 0)`; conversely, over a field whose `2` is not
zero, as it is not in `F_{p^2}`, when `X4 ≠ 0`, `Z4 ≠ 0` and `X4^2 ≠ Z4^2` the
output is `(0 : 0)` only if, and in fact exactly when, the unscaled pair
`(X', Z')` of the Costello-Longa-Naehrig formula is `(0, 0)`. -/
theorem FourIsogeny_Eval_scaling_vanishes :
    (∀ (R : Type) [CommRing R] (X4 Z4 X Z : R), X4 ^ 2 = Z4 ^ 2 →
        (ComputeFourIsogeny (ProjectivePoint.mk X4 Z4)).2.Eval (ProjectivePoint.mk X Z)
          = ProjectivePoint.mk 0 0)
      ∧ (∀ (R : Type) [CommRing R] (X Z : R),
        (ComputeFourIsogeny (ProjectivePoint.mk (1 : R) 1)).2.Eval (ProjectivePoint.mk X Z)
          = ProjectivePoint.mk 0 0)
      ∧ (∀ (K : Type) [Field K] (X4 Z4 X Z : K),
        (2 : K) ≠ 0 → X4 ≠ 0 → Z4 ≠ 0 → X4 ^ 2 ≠ Z4 ^ 2 →
        ((ComputeFourIsogeny (ProjectivePoint.mk X4 Z4)).2.Eval (ProjectivePoint.mk X Z)
            = ProjectivePoint.mk 0 0
          ↔ (2 * X4 * Z * Z4 - (X4 ^ 2 + Z4 ^ 2) * X) * (X * X4 - Z * Z4) ^ 2 * X = 0
            ∧ (2 * X * X4 * Z4 - (X4 ^ 2 + Z4 ^ 2) * Z) * (X4 * Z - X * Z4) ^ 2 * Z = 0))
      ∧ (2 : ZMod p751) ≠ 0
      ∧ (2 : ExtensionFieldElement (ZMod p751)) ≠ 0 := by
  have hzero : ∀ (R : Type) [CommRing R] (X4 Z4 X Z : R), X4 ^ 2 = Z4 ^ 2 →
      (ComputeFourIsogeny (ProjectivePoint.mk X4 Z4)).2.Eval (ProjectivePoint.mk X Z)
        = ProjectivePoint.mk 0 0 := by
    intro R _ X4 Z4 X Z h
    rw [FourIsogeny_Eval_eq_scaled, h, sub_self]
    simp
  refine ⟨hzero, fun R _ X Z => hzero R 1 1 X Z rfl, ?_, by decide, by decide⟩
  intro K _ X4 Z4 X Z h2 hX4 hZ4 hsq
  have hk : (2 : K) ^ 4 * (X4 ^ 2 - Z4 ^ 2) * X4 ^ 2 * Z4 ^ 4 ≠ 0 :=
    mul_ne_zero (mul_ne_zero (mul_ne_zero (pow_ne_zero 4 h2) (sub_ne_zero.mpr hsq))
      (pow_ne_zero 2 hX4)) (pow_ne_zero 4 hZ4)
  rw [FourIsogeny_Eval_eq_scaled, ProjectivePoint.mk.injEq]
  constructor
  · rintro ⟨hx, hz⟩
    exact ⟨(mul_eq_zero.mp hx).resolve_right hk, (mul_eq_zero.mp hz).resolve_right hk⟩
  · rintro ⟨hx, hz⟩
    rw [hx, hz, zero_mul]
    exact ⟨rfl, rfl⟩

/-! ## Instances of the conditional statements -/

/-- Witness for C11 at `x = (2, 3)`. -/
theorem FieldElement.Mul_one_neutral_witness :
    FieldElement.VartimeEq ((FieldElement.mk 2 3).Mul FieldElement.one)
      (FieldElement.mk 2 3) = true :=
  (FieldElement.Mul_one_neutral (FieldElement.mk 2 3) (by decide) (by decide)).1

/-- Witness for C12 at the lazy element `x = (p + 5, 7)`. -/
theorem FieldElement.Add_Sub_componentwise_witness :
    p751 + 5 < 2 * p751 ∧ 7 < 2 * p751
      ∧ FieldElement.VartimeEq ((FieldElement.mk (p751 + 5) 7).Add FieldElement.zero)
          (FieldElement.mk (p751 + 5) 7) = true :=
  ⟨by decide, by decide,
   (FieldElement.Add_Sub_componentwise (FieldElement.mk (p751 + 5) 7) (FieldElement.mk 1 2)
      (FieldElement.mk 3 4)).2.2.2.2.2.2 (by decide) (by decide)⟩

/-- Witness for C13 at `lhs = (p + 5, 7)` and `rhs = (5, p + 7)`. -/
theorem FieldElement.VartimeEq_iff_congruent_witness :
    FieldElement.VartimeEq (FieldElement.mk (p751 + 5) 7) (FieldElement.mk 5 (p751 + 7)) = true
      ↔ (p751 + 5) % p751 = 5 % p751 ∧ 7 % p751 = (p751 + 7) % p751 :=
  (FieldElement.VartimeEq_iff_congruent (FieldElement.mk (p751 + 5) 7)
    (FieldElement.mk 5 (p751 + 7)) (by decide) (by decide) (by decide) (by decide)).1

/-- Witness for C15 at `lhs = (2, 3)` and `rhs = (5, 7)`. -/
theorem FieldElement.Mul_B_karatsuba_witness :
    fromMontgomery ((FieldElement.mk 2 3).Mul (FieldElement.mk 5 7)).B
      = (fromMontgomery 2 * fromMontgomery 7 + fromMontgomery 3 * fromMontgomery 5) % p751 :=
  (FieldElement.Mul_B_karatsuba (FieldElement.mk 2 3) (FieldElement.mk 5 7)
    (by decide) (by decide) (by decide) (by decide)).2.2.2

/-- Witness for C16 at `lhs = (2, 3)` and `rhs = (5, 7)`. -/
theorem FieldElement.Mul_A_lazy_sum_witness :
    fromMontgomery ((FieldElement.mk 2 3).Mul (FieldElement.mk 5 7)).A
      = (fromMontgomery 2 * fromMontgomery 5 + fromMontgomery 3 * fromMontgomery 7) % p751 :=
  (FieldElement.Mul_A_lazy_sum (FieldElement.mk 2 3) (FieldElement.mk 5 7)
    (by decide) (by decide) (by decide) (by decide)).2.2

/-- Witness for C18 at the largest operands, all four components `2p - 1`. -/
theorem FieldElement.Mul_lazy_no_overflow_witness :
    2 * p751 - 1 < 2 * p751
      ∧ Fp751SubReduced (2 * p751 - 1) (2 * p751 - 1) * Fp751SubReduced (2 * p751 - 1)
            (2 * p751 - 1)
          + (2 * p751 - 1) * (2 * p751 - 1) + (2 * p751 - 1) * (2 * p751 - 1) < 2 ^ 1536 :=
  ⟨by decide,
   (FieldElement.Mul_lazy_no_overflow (FieldElement.mk (2 * p751 - 1) (2 * p751 - 1))
      (FieldElement.mk (2 * p751 - 1) (2 * p751 - 1))
      (by decide) (by decide) (by decide) (by decide)).2.2.1⟩

/-- Witness for C17 over the rationals, at the kernel point `(2 : 1)` and the
point `(3 : 1)`. -/
theorem FourIsogeny_Eval_scaling_vanishes_witness :
    ((2 : ℚ) ≠ 0 ∧ (1 : ℚ) ≠ 0 ∧ (2 : ℚ) ^ 2 ≠ 1 ^ 2)
      ∧ ((ComputeFourIsogeny (ProjectivePoint.mk (2 : ℚ) 1)).2.Eval (ProjectivePoint.mk 3 1)
            = ProjectivePoint.mk 0 0
          ↔ (2 * 2 * 1 * 1 - ((2 : ℚ) ^ 2 + 1 ^ 2) * 3) * (3 * 2 - 1 * 1) ^ 2 * 3 = 0
            ∧ (2 * 3 * 2 * 1 - ((2 : ℚ) ^ 2 + 1 ^ 2) * 1) * (2 * 1 - 3 * 1) ^ 2 * 1 = 0) :=
  ⟨⟨by norm_num, by norm_num, by norm_num⟩,
   FourIsogeny_Eval_scaling_vanishes.2.2.1 ℚ 2 1 3 1 (by norm_num) (by norm_num) (by norm_num)
     (by norm_num)⟩

end Cln16sidh
